import Mathlib

/-!
Verification of the Backup Retention & Verification Engine of
`utils/backup_utils.py` (class `BackupManager`).

Shallow embedding conventions:
* An archive record (a Python metadata dict) becomes `BackupRec`.  The
  transient keys `week_num` / `month_num`, which `_rotate_with_policy`
  adds to a dict while classifying, are modelled as `Option Int` fields
  whose value `none` means "key absent".
* `created_at` is an ISO-8601 string in the source; all uses either
  parse it (`datetime.fromisoformat`) or compare it lexicographically.
  For timestamps in the single format the program emits, lexicographic
  string order coincides with chronological order, so we model the
  field as `Option Int` (seconds; `none` = missing or unparseable) and
  compare values, with `none` ordered least (the `x.get("created_at", "")`
  default `""` is the least string).
* `timedelta.days` and Python `//` floor their operands, hence `Int.fdiv`.
* The filesystem is a list of `FsFile` entries; the metadata store is an
  association list keyed by filename, mirroring the JSON object.
-/

structure BackupRec where
  filename : String
  timestamp : String
  createdAt : Option Int
  size : Nat
  checksum : Option String
  verified : Bool
  weekNum : Option Int
  monthNum : Option Int
deriving DecidableEq, Repr

/-- A file in the backup directory.  `deletable = false` models a file for
which `os.remove` raises an `OSError` (e.g. a permission failure). -/
structure FsFile where
  name : String
  mtime : Int
  size : Nat
  deletable : Bool
deriving DecidableEq, Repr

/-- The tiered retention policy dictionary.  A field holds `none` when the
key is absent from the dictionary, so `Option.getD _ 0` is exactly
`dict.get(key, 0)`. -/
structure RetentionPolicy where
  daily : Option Int
  weekly : Option Int
  monthly : Option Int
deriving DecidableEq, Repr

def RetentionPolicy.dailyCount (p : RetentionPolicy) : Int := p.daily.getD 0

def RetentionPolicy.weeklyCount (p : RetentionPolicy) : Int := p.weekly.getD 0

/-- Python dict truthiness: a dict is falsy iff it has no keys. -/
def RetentionPolicy.isEmptyDict (p : RetentionPolicy) : Bool :=
  p.daily.isNone && p.weekly.isNone && p.monthly.isNone

/-- `self.retention_policy = retention_policy or {}` in `__init__`. -/
def effectivePolicy (rp : Option RetentionPolicy) : RetentionPolicy :=
  rp.getD ⟨none, none, none⟩

/-- The `if self.retention_policy:` test in `rotate_backups`. -/
def usesTiered (rp : Option RetentionPolicy) : Bool :=
  !(effectivePolicy rp).isEmptyDict

/-! ### Sorting (`list_backups` line 227)

`backups.sort(key=lambda x: x.get("created_at", ""), reverse=True)` is a
stable sort, newest first.  `keyLe` is the (non-strict) order on sort keys;
`DescLe a b` says `a` may precede `b` in the output. -/

def keyLe (a b : Option Int) : Bool :=
  match a, b with
  | none, _ => true
  | some _, none => false
  | some x, some y => decide (x ≤ y)

def DescLe (a b : BackupRec) : Prop := keyLe b.createdAt a.createdAt = true

instance : DecidableRel DescLe := fun _ _ =>
  inferInstanceAs (Decidable (_ = true))

theorem keyLe_total (a b : Option Int) : keyLe a b = true ∨ keyLe b a = true := by
  rcases a with _ | x <;> rcases b with _ | y <;> simp [keyLe]
  omega

theorem keyLe_trans {a b c : Option Int} (h1 : keyLe a b = true)
    (h2 : keyLe b c = true) : keyLe a c = true := by
  rcases a with _ | x <;> rcases b with _ | y <;> rcases c with _ | z <;>
    simp_all [keyLe]
  omega

instance : IsTotal BackupRec DescLe :=
  ⟨fun a b => (keyLe_total b.createdAt a.createdAt).imp id id⟩

instance : IsTrans BackupRec DescLe :=
  ⟨fun _ _ _ h1 h2 => keyLe_trans h2 h1⟩

def sortDesc (l : List BackupRec) : List BackupRec :=
  List.insertionSort DescLe l

theorem sortDesc_sorted (l : List BackupRec) :
    List.Pairwise DescLe (sortDesc l) :=
  List.sorted_insertionSort DescLe l

theorem sortDesc_perm (l : List BackupRec) : List.Perm (sortDesc l) l :=
  List.perm_insertionSort DescLe l

theorem sortDesc_eq_of_sorted {l : List BackupRec}
    (h : List.Pairwise DescLe l) : sortDesc l = l :=
  List.Sorted.insertionSort_eq h

/-! ### Retention engine (`_rotate_with_policy`, lines 266-325)

Each record is classified against "now".  `ageDays` is
`(now - created).days`: `timedelta.days` floors, as does Python `//`,
hence `Int.fdiv`. -/

def ageDays (now c : Int) : Int := (now - c).fdiv 86400

/-- The branch of the `if/elif` chain in `_rotate_with_policy` (lines
283-306) that a parseable record with the given age falls into. -/
inductive TierBranch where
  | today
  | dailyTier
  | weeklyTier
  | monthlyTier
deriving DecidableEq, Repr

def tierOf (pol : RetentionPolicy) (age : Int) : TierBranch :=
  if age = 0 then TierBranch.today
  else if age ≤ pol.dailyCount then TierBranch.dailyTier
  else if age ≤ pol.dailyCount + 7 * pol.weeklyCount then TierBranch.weeklyTier
  else TierBranch.monthlyTier

/-- Erase the transient classification keys, recovering the record as it is
stored on disk / rebuilt by `list_backups` (which never emits them). -/
def stripAnn (b : BackupRec) : BackupRec :=
  { b with weekNum := none, monthNum := none }

/-- The classification loop of `_rotate_with_policy` (lines 277-310).

`keepAcc` is the `to_keep` list accumulated so far (the loop reads it in
the bucket-membership tests); the result is the triple of records this
call appends to `to_keep`, to `to_delete`, and the processed records in
input order (carrying the in-place `week_num`/`month_num` mutations, so
that the final `for backup in backups` loop sees the mutated dicts).
A record whose `created_at` fails to parse takes the `except` branch and
is marked for deletion. -/
def classifyGo (pol : RetentionPolicy) (now : Int) (keepAcc : List BackupRec) :
    List BackupRec → List BackupRec × List BackupRec × List BackupRec
  | [] => ([], [], [])
  | b :: rest =>
    match b.createdAt with
    | none =>
      let r := classifyGo pol now keepAcc rest
      (r.1, b :: r.2.1, b :: r.2.2)
    | some c =>
      match tierOf pol (ageDays now c) with
      | TierBranch.today =>
        let r := classifyGo pol now (keepAcc ++ [b]) rest
        (b :: r.1, r.2.1, b :: r.2.2)
      | TierBranch.dailyTier =>
        let r := classifyGo pol now (keepAcc ++ [b]) rest
        (b :: r.1, r.2.1, b :: r.2.2)
      | TierBranch.weeklyTier =>
        let w := (ageDays now c).fdiv 7
        if (keepAcc.map BackupRec.weekNum).contains (some w) then
          let r := classifyGo pol now keepAcc rest
          (r.1, b :: r.2.1, b :: r.2.2)
        else
          let b2 := { b with weekNum := some w }
          let r := classifyGo pol now (keepAcc ++ [b2]) rest
          (b2 :: r.1, r.2.1, b2 :: r.2.2)
      | TierBranch.monthlyTier =>
        let m := (ageDays now c).fdiv 30
        if (keepAcc.map BackupRec.monthNum).contains (some m) then
          let r := classifyGo pol now keepAcc rest
          (r.1, b :: r.2.1, b :: r.2.2)
        else
          let b2 := { b with monthNum := some m }
          let r := classifyGo pol now (keepAcc ++ [b2]) rest
          (b2 :: r.1, r.2.1, b2 :: r.2.2)

/-- `(to_keep, to_delete, processed)` for a full classification run
starting from the empty `to_keep`. -/
def classifyTiered (pol : RetentionPolicy) (now : Int)
    (sorted : List BackupRec) : List BackupRec × List BackupRec × List BackupRec :=
  classifyGo pol now [] sorted

/-- Line 315: `[b for b in backups if b not in to_keep and b not in to_delete]`. -/
def tieredRemaining (pol : RetentionPolicy) (now : Int)
    (sorted : List BackupRec) : List BackupRec :=
  let r := classifyTiered pol now sorted
  r.2.2.filter (fun b => !(decide (b ∈ r.1)) && !(decide (b ∈ r.2.1)))

/-- Lines 312-316: the floor-guarantee backfill producing the final keep
list. -/
def tieredFinalKeep (pol : RetentionPolicy) (maxb : Nat) (now : Int)
    (sorted : List BackupRec) : List BackupRec :=
  let keep := (classifyTiered pol now sorted).1
  if keep.length < maxb then
    keep ++ (tieredRemaining pol now sorted).take (maxb - keep.length)
  else keep

/-- `_rotate_with_policy` as a selection function: the records whose files
the final loop (lines 319-325) removes.  The `if not backups: return`
guard is line 269-270. -/
def rotateWithPolicySelect (pol : RetentionPolicy) (maxb : Nat) (now : Int)
    (sorted : List BackupRec) : List BackupRec :=
  if sorted.isEmpty then []
  else
    (classifyTiered pol now sorted).2.2.filter
      (fun b => !(decide (b ∈ tieredFinalKeep pol maxb now sorted)))

/-- `_rotate_simple` (lines 253-264): `backups[self.max_backups:]` is
deleted when `len(backups) > self.max_backups`. -/
def rotateSimpleSelect (maxb : Nat) (sorted : List BackupRec) : List BackupRec :=
  if maxb < sorted.length then sorted.drop maxb else []

/-- `rotate_backups` (lines 241-251): dispatch on the truthiness of
`self.retention_policy`, applied to the (already sorted) `list_backups`
output. -/
def selectForDeletion (rp : Option RetentionPolicy) (maxb : Nat) (now : Int)
    (sorted : List BackupRec) : List BackupRec :=
  if usesTiered rp then
    rotateWithPolicySelect (effectivePolicy rp) maxb now sorted
  else rotateSimpleSelect maxb sorted

/-- The records that survive one `rotate_backups` call, as they will be
rebuilt by the next `list_backups` (transient annotations are not
persisted, hence `stripAnn`). -/
def keptAfterRotation (rp : Option RetentionPolicy) (maxb : Nat) (now : Int)
    (bs : List BackupRec) : List BackupRec :=
  if usesTiered rp then
    (tieredFinalKeep (effectivePolicy rp) maxb now (sortDesc bs)).map stripAnn
  else (sortDesc bs).take maxb

/-! ### Catalog listing (`list_backups`, lines 191-228)

The string operations of the source (`str.startswith`, `str.endswith`,
`str.replace`, `str.split`, `str.join`) are restated over the character
lists underlying `String`, so that the kernel can evaluate them on
concrete inputs (the built-in versions recurse on byte positions and do
not reduce definitionally). -/

def listLeads : List Char → List Char → Bool
  | _, [] => true
  | [], _ :: _ => false
  | c :: cs, d :: ds => c == d && listLeads cs ds

/-- `str.startswith(pat)`. -/
def strLeads (s pat : String) : Bool := listLeads s.data pat.data

/-- `str.endswith(pat)`. -/
def strTrails (s pat : String) : Bool := listLeads s.data.reverse pat.data.reverse

/-- `str.replace(pat, "")` for a non-empty `pat`: delete every
non-overlapping occurrence, scanning left to right.  The first argument
is fuel, instantiated with the length of the scanned list. -/
def dropAllOcc (pat : List Char) : Nat → List Char → List Char
  | _, [] => []
  | 0, s => s
  | fuel + 1, c :: cs =>
    if listLeads (c :: cs) pat then
      dropAllOcc pat fuel ((c :: cs).drop pat.length)
    else c :: dropAllOcc pat fuel cs

/-- `str.split(sep)` for a single-character separator. -/
def splitCharAux (sep : Char) : List Char → List Char → List (List Char)
  | [], cur => [cur.reverse]
  | c :: cs, cur =>
    if c == sep then cur.reverse :: splitCharAux sep cs []
    else splitCharAux sep cs (c :: cur)

/-- `sep.join(parts)` for a single-character separator. -/
def joinChar (sep : Char) : List (List Char) → List Char
  | [] => []
  | [x] => x
  | x :: xs => x ++ sep :: joinChar sep xs

/-- `_extract_timestamp` (lines 230-239): strip `.zip`, split on `_`, and
rejoin everything after the first component. -/
def extractTimestamp (filename : String) : String :=
  let stripped := dropAllOcc ".zip".data filename.data.length filename.data
  let parts := splitCharAux '_' stripped []
  if parts.length ≥ 2 then String.mk (joinChar '_' (parts.drop 1)) else ""

/-- `list_backups` before the final sort: scan the directory for files
matching `<prefix>…​.zip`, take the stored record when present (refreshing
`size`), otherwise synthesize one from the file (creation time from
mtime, no checksum, unverified).  Files obtained from the directory
listing exist, so the `os.path.exists` re-check keeps every entry. -/
def listBackupsRaw (pfx : String) (files : List FsFile)
    (meta : List (String × BackupRec)) : List BackupRec :=
  let backupFiles := files.filter
    (fun f => strLeads f.name pfx && strTrails f.name ".zip")
  backupFiles.map (fun f =>
    match List.lookup f.name meta with
    | some stored => { stored with size := f.size }
    | none =>
      { filename := f.name
        timestamp := extractTimestamp f.name
        createdAt := some f.mtime
        size := f.size
        checksum := none
        verified := false
        weekNum := none
        monthNum := none })

/-- `list_backups`: the reconciled records, newest first. -/
def listBackups (pfx : String) (files : List FsFile)
    (meta : List (String × BackupRec)) : List BackupRec :=
  sortDesc (listBackupsRaw pfx files meta)

/-! ### Deletion loop of `rotate_backups` (lines 258-264 and 319-325)

The backup directory plus the metadata store.  Deleting an entry is
`os.path.exists` / `os.remove` / `_remove_from_metadata`; an `OSError`
from `os.remove` is not caught anywhere in `rotate_backups`, so it
propagates, which the model renders as returning `some errorMessage`
with the remaining records unprocessed. -/

structure CatalogState where
  files : List FsFile
  metadata : List (String × BackupRec)
deriving DecidableEq, Repr

/-- `_remove_from_metadata` (lines 327-333). -/
def removeMeta (meta : List (String × BackupRec)) (filename : String) :
    List (String × BackupRec) :=
  meta.filter (fun kv => !(kv.1 == filename))

def deleteLoop (st : CatalogState) :
    List BackupRec → CatalogState × Option String
  | [] => (st, none)
  | b :: rest =>
    match st.files.find? (fun f => f.name == b.filename) with
    | none => deleteLoop st rest
    | some f =>
      if f.deletable then
        deleteLoop
          { files := st.files.filter (fun g => !(g.name == b.filename))
            metadata := removeMeta st.metadata b.filename } rest
      else (st, some ("Failed to delete " ++ b.filename))

/-- One full `rotate_backups` call against a catalog state. -/
def rotateOnState (rp : Option RetentionPolicy) (maxb : Nat) (now : Int)
    (pfx : String) (st : CatalogState) : CatalogState × Option String :=
  deleteLoop st
    (selectForDeletion rp maxb now (listBackups pfx st.files st.metadata))

/-! ### Archive builder (`create_encrypted_backup`, lines 53-136)

The external `zip` invocation is abstracted by `ZipBehavior`: its exit
code and stderr, whether it left (partial or complete) output at the
destination path, and the outcome of the optional verification.  The
staging directory created by `tempfile.mkdtemp` lives in
`BuildState.tempDirs`; the `finally` block (lines 133-136) removes it. -/

structure ZipBehavior where
  copyFails : Bool
  zipExit : Int
  zipStderr : String
  zipWritesDest : Bool
  archiveSize : Nat
  digest : String
  verifyOk : Bool
deriving DecidableEq, Repr

structure BuildState where
  tempDirs : List String
  destFiles : List String
deriving DecidableEq, Repr

def backupFilenameOf (pfx ts : String) : String := pfx ++ "_" ++ ts ++ ".zip"

/-- The `try` body (lines 72-131): stage the source (which may fail),
run `zip`, raise on non-zero exit, else stat/checksum/verify and build
the record.  Note that nothing in the body ever touches `tempDirs` and
nothing removes the destination file. -/
def buildBody (pfx ts : String) (nowIso : Int) (beh : ZipBehavior)
    (st : BuildState) : BuildState × Except String (String × BackupRec) :=
  if beh.copyFails then (st, Except.error "copy failed")
  else
    let name := backupFilenameOf pfx ts
    let wrote := (beh.zipExit == 0) || beh.zipWritesDest
    let st1 := if wrote then { st with destFiles := st.destFiles ++ [name] } else st
    if beh.zipExit ≠ 0 then
      (st1, Except.error ("Failed to create encrypted backup: " ++ beh.zipStderr))
    else
      (st1, Except.ok (name,
        { filename := name
          timestamp := ts
          createdAt := some nowIso
          size := beh.archiveSize
          checksum := some beh.digest
          verified := beh.verifyOk
          weekNum := none
          monthNum := none }))

/-- `create_encrypted_backup`: `mkdtemp`, the `try` body, then the
`finally` cleanup `if os.path.exists(temp_dir): shutil.rmtree(temp_dir)`,
run on every exit path (normal return or propagating exception). -/
def createEncryptedBackup (pfx ts : String) (nowIso : Int) (tempName : String)
    (beh : ZipBehavior) (st0 : BuildState) :
    BuildState × Except String (String × BackupRec) :=
  let stT : BuildState := { st0 with tempDirs := st0.tempDirs ++ [tempName] }
  let r := buildBody pfx ts nowIso beh stT
  let stF :=
    if tempName ∈ r.1.tempDirs then
      { r.1 with tempDirs := r.1.tempDirs.filter (fun d => !(d == tempName)) }
    else r.1
  (stF, r.2)

/-! ### Unfolding lemmas for the classification loop -/

theorem stripAnn_eq_self {b : BackupRec} (hw : b.weekNum = none)
    (hm : b.monthNum = none) : stripAnn b = b := by
  cases b
  simp_all [stripAnn]

theorem stripAnn_weekUpdate (b : BackupRec) (x : Option Int) :
    stripAnn { b with weekNum := x } = stripAnn b := rfl

theorem stripAnn_monthUpdate (b : BackupRec) (x : Option Int) :
    stripAnn { b with monthNum := x } = stripAnn b := rfl

theorem stripAnn_createdAt (b : BackupRec) :
    (stripAnn b).createdAt = b.createdAt := rfl

theorem classifyGo_nil (pol : RetentionPolicy) (now : Int)
    (acc : List BackupRec) : classifyGo pol now acc [] = ([], [], []) := rfl

theorem classifyGo_cons_none {b : BackupRec} (pol : RetentionPolicy) (now : Int)
    (acc rest : List BackupRec) (h : b.createdAt = none) :
    classifyGo pol now acc (b :: rest) =
      ((classifyGo pol now acc rest).1,
       b :: (classifyGo pol now acc rest).2.1,
       b :: (classifyGo pol now acc rest).2.2) := by
  simp [classifyGo, h]

theorem classifyGo_cons_today {b : BackupRec} {c : Int} (pol : RetentionPolicy)
    (now : Int) (acc rest : List BackupRec) (h : b.createdAt = some c)
    (ht : tierOf pol (ageDays now c) = TierBranch.today) :
    classifyGo pol now acc (b :: rest) =
      (b :: (classifyGo pol now (acc ++ [b]) rest).1,
       (classifyGo pol now (acc ++ [b]) rest).2.1,
       b :: (classifyGo pol now (acc ++ [b]) rest).2.2) := by
  simp [classifyGo, h, ht]

theorem classifyGo_cons_daily {b : BackupRec} {c : Int} (pol : RetentionPolicy)
    (now : Int) (acc rest : List BackupRec) (h : b.createdAt = some c)
    (ht : tierOf pol (ageDays now c) = TierBranch.dailyTier) :
    classifyGo pol now acc (b :: rest) =
      (b :: (classifyGo pol now (acc ++ [b]) rest).1,
       (classifyGo pol now (acc ++ [b]) rest).2.1,
       b :: (classifyGo pol now (acc ++ [b]) rest).2.2) := by
  simp [classifyGo, h, ht]

theorem classifyGo_cons_weekly_dup {b : BackupRec} {c : Int}
    (pol : RetentionPolicy) (now : Int) (acc rest : List BackupRec)
    (h : b.createdAt = some c)
    (ht : tierOf pol (ageDays now c) = TierBranch.weeklyTier)
    (hw : (acc.map BackupRec.weekNum).contains (some ((ageDays now c).fdiv 7)) = true) :
    classifyGo pol now acc (b :: rest) =
      ((classifyGo pol now acc rest).1,
       b :: (classifyGo pol now acc rest).2.1,
       b :: (classifyGo pol now acc rest).2.2) := by
  simp only [classifyGo, h, ht]
  rw [hw]
  simp [h]

theorem classifyGo_cons_weekly_new {b : BackupRec} {c : Int}
    (pol : RetentionPolicy) (now : Int) (acc rest : List BackupRec)
    (h : b.createdAt = some c)
    (ht : tierOf pol (ageDays now c) = TierBranch.weeklyTier)
    (hw : (acc.map BackupRec.weekNum).contains (some ((ageDays now c).fdiv 7)) = false) :
    classifyGo pol now acc (b :: rest) =
      ({ b with weekNum := some ((ageDays now c).fdiv 7) } ::
         (classifyGo pol now
           (acc ++ [{ b with weekNum := some ((ageDays now c).fdiv 7) }]) rest).1,
       (classifyGo pol now
           (acc ++ [{ b with weekNum := some ((ageDays now c).fdiv 7) }]) rest).2.1,
       { b with weekNum := some ((ageDays now c).fdiv 7) } ::
         (classifyGo pol now
           (acc ++ [{ b with weekNum := some ((ageDays now c).fdiv 7) }]) rest).2.2) := by
  simp only [classifyGo, h, ht]
  rw [hw]
  simp [h]

theorem classifyGo_cons_monthly_dup {b : BackupRec} {c : Int}
    (pol : RetentionPolicy) (now : Int) (acc rest : List BackupRec)
    (h : b.createdAt = some c)
    (ht : tierOf pol (ageDays now c) = TierBranch.monthlyTier)
    (hm : (acc.map BackupRec.monthNum).contains (some ((ageDays now c).fdiv 30)) = true) :
    classifyGo pol now acc (b :: rest) =
      ((classifyGo pol now acc rest).1,
       b :: (classifyGo pol now acc rest).2.1,
       b :: (classifyGo pol now acc rest).2.2) := by
  simp only [classifyGo, h, ht]
  rw [hm]
  simp [h]

theorem classifyGo_cons_monthly_new {b : BackupRec} {c : Int}
    (pol : RetentionPolicy) (now : Int) (acc rest : List BackupRec)
    (h : b.createdAt = some c)
    (ht : tierOf pol (ageDays now c) = TierBranch.monthlyTier)
    (hm : (acc.map BackupRec.monthNum).contains (some ((ageDays now c).fdiv 30)) = false) :
    classifyGo pol now acc (b :: rest) =
      ({ b with monthNum := some ((ageDays now c).fdiv 30) } ::
         (classifyGo pol now
           (acc ++ [{ b with monthNum := some ((ageDays now c).fdiv 30) }]) rest).1,
       (classifyGo pol now
           (acc ++ [{ b with monthNum := some ((ageDays now c).fdiv 30) }]) rest).2.1,
       { b with monthNum := some ((ageDays now c).fdiv 30) } ::
         (classifyGo pol now
           (acc ++ [{ b with monthNum := some ((ageDays now c).fdiv 30) }]) rest).2.2) := by
  simp only [classifyGo, h, ht]
  rw [hm]
  simp [h]

/-! ### Structural facts about the classification loop -/

/-- Every processed record lands in `to_keep` or in `to_delete`: the
`if/elif` chain of `_rotate_with_policy` has no fall-through. -/
theorem classify_processed_split (pol : RetentionPolicy) (now : Int) :
    ∀ (L acc : List BackupRec) (x : BackupRec),
      x ∈ (classifyGo pol now acc L).2.2 →
      x ∈ (classifyGo pol now acc L).1 ∨ x ∈ (classifyGo pol now acc L).2.1 := by
  intro L
  induction L with
  | nil =>
    intro acc x hx
    rw [classifyGo_nil] at hx
    simp at hx
  | cons b rest ih =>
    intro acc x hx
    rcases hcb : b.createdAt with _ | c
    · rw [classifyGo_cons_none pol now acc rest hcb] at hx ⊢
      dsimp only at hx ⊢
      rcases List.mem_cons.mp hx with rfl | hx'
      · exact Or.inr (List.mem_cons_self _ _)
      · rcases ih acc x hx' with hk | hd
        · exact Or.inl hk
        · exact Or.inr (List.mem_cons_of_mem _ hd)
    · cases htier : tierOf pol (ageDays now c) with
      | today =>
        rw [classifyGo_cons_today pol now acc rest hcb htier] at hx ⊢
        dsimp only at hx ⊢
        rcases List.mem_cons.mp hx with rfl | hx'
        · exact Or.inl (List.mem_cons_self _ _)
        · rcases ih (acc ++ [b]) x hx' with hk | hd
          · exact Or.inl (List.mem_cons_of_mem _ hk)
          · exact Or.inr hd
      | dailyTier =>
        rw [classifyGo_cons_daily pol now acc rest hcb htier] at hx ⊢
        dsimp only at hx ⊢
        rcases List.mem_cons.mp hx with rfl | hx'
        · exact Or.inl (List.mem_cons_self _ _)
        · rcases ih (acc ++ [b]) x hx' with hk | hd
          · exact Or.inl (List.mem_cons_of_mem _ hk)
          · exact Or.inr hd
      | weeklyTier =>
        cases hw : (acc.map BackupRec.weekNum).contains (some ((ageDays now c).fdiv 7)) with
        | true =>
          rw [classifyGo_cons_weekly_dup pol now acc rest hcb htier hw] at hx ⊢
          dsimp only at hx ⊢
          rcases List.mem_cons.mp hx with rfl | hx'
          · exact Or.inr (List.mem_cons_self _ _)
          · rcases ih acc x hx' with hk | hd
            · exact Or.inl hk
            · exact Or.inr (List.mem_cons_of_mem _ hd)
        | false =>
          rw [classifyGo_cons_weekly_new pol now acc rest hcb htier hw] at hx ⊢
          dsimp only at hx ⊢
          rcases List.mem_cons.mp hx with rfl | hx'
          · exact Or.inl (List.mem_cons_self _ _)
          · rcases ih (acc ++ [_]) x hx' with hk | hd
            · exact Or.inl (List.mem_cons_of_mem _ hk)
            · exact Or.inr hd
      | monthlyTier =>
        cases hm : (acc.map BackupRec.monthNum).contains (some ((ageDays now c).fdiv 30)) with
        | true =>
          rw [classifyGo_cons_monthly_dup pol now acc rest hcb htier hm] at hx ⊢
          dsimp only at hx ⊢
          rcases List.mem_cons.mp hx with rfl | hx'
          · exact Or.inr (List.mem_cons_self _ _)
          · rcases ih acc x hx' with hk | hd
            · exact Or.inl hk
            · exact Or.inr (List.mem_cons_of_mem _ hd)
        | false =>
          rw [classifyGo_cons_monthly_new pol now acc rest hcb htier hm] at hx ⊢
          dsimp only at hx ⊢
          rcases List.mem_cons.mp hx with rfl | hx'
          · exact Or.inl (List.mem_cons_self _ _)
          · rcases ih (acc ++ [_]) x hx' with hk | hd
            · exact Or.inl (List.mem_cons_of_mem _ hk)
            · exact Or.inr hd

/-- The keys of the kept records form a subsequence of the input keys:
classification annotates and selects, never reorders. -/
theorem classify_keep_keys_sublist (pol : RetentionPolicy) (now : Int) :
    ∀ (L acc : List BackupRec),
      List.Sublist ((classifyGo pol now acc L).1.map BackupRec.createdAt)
        (L.map BackupRec.createdAt) := by
  intro L
  induction L with
  | nil =>
    intro acc
    simp [classifyGo_nil]
  | cons b rest ih =>
    intro acc
    rcases hcb : b.createdAt with _ | c
    · rw [classifyGo_cons_none pol now acc rest hcb]
      dsimp only
      rw [List.map_cons]
      exact (ih acc).cons _
    · cases htier : tierOf pol (ageDays now c) with
      | today =>
        rw [classifyGo_cons_today pol now acc rest hcb htier]
        dsimp only
        rw [List.map_cons, List.map_cons]
        exact (ih (acc ++ [b])).cons₂ _
      | dailyTier =>
        rw [classifyGo_cons_daily pol now acc rest hcb htier]
        dsimp only
        rw [List.map_cons, List.map_cons]
        exact (ih (acc ++ [b])).cons₂ _
      | weeklyTier =>
        cases hw : (acc.map BackupRec.weekNum).contains (some ((ageDays now c).fdiv 7)) with
        | true =>
          rw [classifyGo_cons_weekly_dup pol now acc rest hcb htier hw]
          dsimp only
          rw [List.map_cons]
          exact (ih acc).cons _
        | false =>
          rw [classifyGo_cons_weekly_new pol now acc rest hcb htier hw]
          dsimp only
          rw [List.map_cons, List.map_cons]
          exact (ih (acc ++ [_])).cons₂ _
      | monthlyTier =>
        cases hm : (acc.map BackupRec.monthNum).contains (some ((ageDays now c).fdiv 30)) with
        | true =>
          rw [classifyGo_cons_monthly_dup pol now acc rest hcb htier hm]
          dsimp only
          rw [List.map_cons]
          exact (ih acc).cons _
        | false =>
          rw [classifyGo_cons_monthly_new pol now acc rest hcb htier hm]
          dsimp only
          rw [List.map_cons, List.map_cons]
          exact (ih (acc ++ [_])).cons₂ _

/-- Re-classifying the kept records (with their transient annotations
stripped, as the next `list_backups` rebuilds them) keeps all of them
again, deletes none, and reproduces the same annotations: the bucket
tests consult exactly the records that were already kept before each
survivor when it was first classified. -/
theorem classifyGo_idem (pol : RetentionPolicy) (now : Int) :
    ∀ (L acc : List BackupRec),
      (∀ x ∈ L, x.weekNum = none ∧ x.monthNum = none) →
      classifyGo pol now acc ((classifyGo pol now acc L).1.map stripAnn) =
        ((classifyGo pol now acc L).1, [], (classifyGo pol now acc L).1) := by
  intro L
  induction L with
  | nil =>
    intro acc _
    rw [classifyGo_nil]
    simp [classifyGo_nil]
  | cons b rest ih =>
    intro acc hann
    have hb := hann b (List.mem_cons_self b rest)
    have hrest : ∀ x ∈ rest, x.weekNum = none ∧ x.monthNum = none :=
      fun x hx => hann x (List.mem_cons_of_mem _ hx)
    have hsb : stripAnn b = b := stripAnn_eq_self hb.1 hb.2
    rcases hcb : b.createdAt with _ | c
    · rw [classifyGo_cons_none pol now acc rest hcb]
      dsimp only
      exact ih acc hrest
    · cases htier : tierOf pol (ageDays now c) with
      | today =>
        rw [classifyGo_cons_today pol now acc rest hcb htier]
        dsimp only
        rw [List.map_cons, hsb, classifyGo_cons_today pol now acc _ hcb htier,
          ih (acc ++ [b]) hrest]
      | dailyTier =>
        rw [classifyGo_cons_daily pol now acc rest hcb htier]
        dsimp only
        rw [List.map_cons, hsb, classifyGo_cons_daily pol now acc _ hcb htier,
          ih (acc ++ [b]) hrest]
      | weeklyTier =>
        cases hw : (acc.map BackupRec.weekNum).contains (some ((ageDays now c).fdiv 7)) with
        | true =>
          rw [classifyGo_cons_weekly_dup pol now acc rest hcb htier hw]
          dsimp only
          exact ih acc hrest
        | false =>
          have ihh : ∀ acc2, classifyGo pol now acc2
              ((classifyGo pol now acc2 rest).1.map stripAnn) =
                ((classifyGo pol now acc2 rest).1, [],
                 (classifyGo pol now acc2 rest).1) :=
            fun acc2 => ih acc2 hrest
          rw [classifyGo_cons_weekly_new pol now acc rest hcb htier hw]
          dsimp only
          rw [List.map_cons, stripAnn_weekUpdate, hsb,
            classifyGo_cons_weekly_new pol now acc _ hcb htier hw, ihh]
      | monthlyTier =>
        cases hm : (acc.map BackupRec.monthNum).contains (some ((ageDays now c).fdiv 30)) with
        | true =>
          rw [classifyGo_cons_monthly_dup pol now acc rest hcb htier hm]
          dsimp only
          exact ih acc hrest
        | false =>
          have ihh : ∀ acc2, classifyGo pol now acc2
              ((classifyGo pol now acc2 rest).1.map stripAnn) =
                ((classifyGo pol now acc2 rest).1, [],
                 (classifyGo pol now acc2 rest).1) :=
            fun acc2 => ih acc2 hrest
          rw [classifyGo_cons_monthly_new pol now acc rest hcb htier hm]
          dsimp only
          rw [List.map_cons, stripAnn_monthUpdate, hsb,
            classifyGo_cons_monthly_new pol now acc _ hcb htier hm, ihh]

theorem filter_not_mem_self (l : List BackupRec) :
    l.filter (fun b => !(decide (b ∈ l))) = [] := by
  apply List.filter_eq_nil_iff.mpr
  intro a ha
  simp [ha]

/-- The backfill pool is empty on every input: the `if/elif` chain places
every record in `to_keep` or `to_delete`, so the list comprehension of
line 315 always evaluates to `[]`. -/
theorem tieredRemaining_nil (pol : RetentionPolicy) (now : Int)
    (sorted : List BackupRec) : tieredRemaining pol now sorted = [] := by
  simp only [tieredRemaining]
  apply List.filter_eq_nil_iff.mpr
  intro a ha
  rcases classify_processed_split pol now sorted [] a ha with h | h <;>
    simp [classifyTiered, h]

/-- Consequently the floor-guarantee step never changes the keep list. -/
theorem tieredFinalKeep_eq_keep (pol : RetentionPolicy) (maxb : Nat) (now : Int)
    (sorted : List BackupRec) :
    tieredFinalKeep pol maxb now sorted = (classifyTiered pol now sorted).1 := by
  simp only [tieredFinalKeep]
  rw [tieredRemaining_nil]
  split <;> simp

/-- The stripped keep list is still sorted newest first. -/
theorem keep_strip_sorted (pol : RetentionPolicy) (now : Int)
    {sorted : List BackupRec} (hs : List.Pairwise DescLe sorted) :
    List.Pairwise DescLe ((classifyTiered pol now sorted).1.map stripAnn) := by
  have h1 : List.Pairwise (fun x y : Option Int => keyLe y x = true)
      (sorted.map BackupRec.createdAt) :=
    List.pairwise_map.mpr (hs.imp (fun h => h))
  have h2 : List.Pairwise (fun x y : Option Int => keyLe y x = true)
      ((classifyTiered pol now sorted).1.map BackupRec.createdAt) :=
    List.Pairwise.sublist (classify_keep_keys_sublist pol now sorted []) h1
  have h3 : ((classifyTiered pol now sorted).1.map stripAnn).map BackupRec.createdAt
      = (classifyTiered pol now sorted).1.map BackupRec.createdAt := by
    rw [List.map_map]
    rfl
  have h4 := h3.symm ▸ h2
  exact (List.pairwise_map.mp h4).imp (fun h => h)

/-- A tiered rotation run on exactly the survivors of a tiered rotation
selects nothing for deletion. -/
theorem rotate_tiered_kept_nil (pol : RetentionPolicy) (maxb : Nat) (now : Int)
    (L : List BackupRec) (hannL : ∀ x ∈ L, x.weekNum = none ∧ x.monthNum = none) :
    rotateWithPolicySelect pol maxb now
      ((classifyTiered pol now L).1.map stripAnn) = [] := by
  have hidem := classifyGo_idem pol now L [] hannL
  simp only [rotateWithPolicySelect]
  split
  · rfl
  · rw [tieredFinalKeep_eq_keep]
    simp only [classifyTiered]
    simp only [hidem]
    exact filter_not_mem_self _

/-! ### Claim theorems -/

/-- C10: `rotate_backups` dispatches to the tiered engine iff the
configured retention policy (after the `or {}` default) is a non-empty
mapping: `None` and `{}` both fall back to simple rotation, and a tier
key absent from the mapping counts as 0, so under a policy holding only
`{"monthly": M}` every parseable record older than today is classified
in the monthly tier (never kept by the daily tier). -/
theorem rotate_mode_selection :
    (∀ rp : Option RetentionPolicy,
       usesTiered rp = true ↔ ¬ (effectivePolicy rp).isEmptyDict = true)
    ∧ usesTiered none = false
    ∧ usesTiered (some ⟨none, none, none⟩) = false
    ∧ (∀ maxb : Nat, ∀ now : Int, ∀ sorted : List BackupRec,
        selectForDeletion none maxb now sorted = rotateSimpleSelect maxb sorted)
    ∧ (∀ M age : Int, 1 ≤ age →
        tierOf ⟨none, none, some M⟩ age = TierBranch.monthlyTier)
    := by
  refine ⟨?_, by decide, by decide, ?_, ?_⟩
  · intro rp
    simp [usesTiered]
  · intro maxb now sorted
    simp [selectForDeletion, usesTiered, effectivePolicy,
      RetentionPolicy.isEmptyDict]
  · intro M age hage
    simp only [tierOf, RetentionPolicy.dailyCount, RetentionPolicy.weeklyCount,
      Option.getD_none]
    rw [if_neg (by omega), if_neg (by omega), if_neg (by omega)]

/-- Witness for C10 at concrete inputs: a policy holding only a monthly
count is a non-empty mapping (tiered mode), and a record aged 5 days
under it is classified in the monthly tier. -/
theorem rotate_mode_selection_witness :
    usesTiered (some ⟨none, none, some 2⟩) = true
    ∧ (1 : Int) ≤ 5
    ∧ tierOf ⟨none, none, some 2⟩ 5 = TierBranch.monthlyTier :=
  ⟨(rotate_mode_selection.1 (some ⟨none, none, some 2⟩)).mpr (by decide),
   by decide,
   rotate_mode_selection.2.2.2.2 2 5 (by decide)⟩

/-- The seven-archive regression scenario of the specification: ages
0, 1, 2, 8, 15, 40, 70 days, policy `{daily: 2, weekly: 2, monthly: 2}`,
`max_backups = 7` (the constructor default). -/
def exRec (name : String) (c : Int) : BackupRec :=
  { filename := name, timestamp := "", createdAt := some c, size := 0,
    checksum := none, verified := false, weekNum := none, monthNum := none }

def exNow : Int := 86400 * 1000

def exPolicy : RetentionPolicy := ⟨some 2, some 2, some 2⟩

def exInventory : List BackupRec :=
  [exRec "p_d00.zip" (86400 * 1000), exRec "p_d01.zip" (86400 * 999),
   exRec "p_d02.zip" (86400 * 998), exRec "p_d08.zip" (86400 * 992),
   exRec "p_d15.zip" (86400 * 985), exRec "p_d40.zip" (86400 * 960),
   exRec "p_d70.zip" (86400 * 930)]

/-- C1 counterexample: in the specification scenario the archive aged
2 days is NOT deleted — `age_days == 2 <= daily == 2` places it in the
daily tier, so it is kept, contradicting the claimed keep set. -/
theorem tiered_example_day2_kept :
    exRec "p_d02.zip" (86400 * 998) ∉
      selectForDeletion (some exPolicy) 7 exNow (sortDesc exInventory) := by
  decide

/-- C1 amended: under policy `{daily: 2, weekly: 2, monthly: 2}` the
engine keeps all seven archives aged 0, 1, 2, 8, 15, 40, 70 days and
deletes nothing: day 2 is within the daily tier (`2 <= daily`), day 8
and day 15 occupy distinct week buckets, day 40 and day 70 distinct
month buckets. -/
theorem tiered_example_keeps_all :
    selectForDeletion (some exPolicy) 7 exNow (sortDesc exInventory) = []
    ∧ (tieredFinalKeep exPolicy 7 exNow (sortDesc exInventory)).map
        BackupRec.filename =
      ["p_d00.zip", "p_d01.zip", "p_d02.zip", "p_d08.zip", "p_d15.zip",
       "p_d40.zip", "p_d70.zip"] := by
  constructor <;> decide

/-- C5: with pairwise-distinct parseable `created_at` and
`max_backups = k < N`, simple rotation deletes exactly the `N - k`
records at indices `k` and beyond of the newest-first order, and every
deleted record is strictly older than every retained one. -/
theorem simple_rotation_deletes_oldest (bs : List BackupRec) (k : Nat) (now : Int)
    (hsome : ∀ b ∈ bs, b.createdAt ≠ none)
    (hdist : bs.Pairwise (fun a b => a.createdAt ≠ b.createdAt))
    (hk : k < bs.length) :
    selectForDeletion none k now (sortDesc bs) = (sortDesc bs).drop k
    ∧ (selectForDeletion none k now (sortDesc bs)).length = bs.length - k
    ∧ ((sortDesc bs).take k).length = k
    ∧ ∀ d ∈ selectForDeletion none k now (sortDesc bs),
        ∀ p ∈ (sortDesc bs).take k,
          ∃ dc pc : Int, d.createdAt = some dc ∧ p.createdAt = some pc ∧ dc < pc := by
  have hlen : (sortDesc bs).length = bs.length := (sortDesc_perm bs).length_eq
  have hmode : selectForDeletion none k now (sortDesc bs)
      = rotateSimpleSelect k (sortDesc bs) := by
    simp [selectForDeletion, usesTiered, effectivePolicy, RetentionPolicy.isEmptyDict]
  have hsel : selectForDeletion none k now (sortDesc bs) = (sortDesc bs).drop k := by
    rw [hmode]
    simp only [rotateSimpleSelect]
    rw [if_pos (by omega)]
  have hdist' : (sortDesc bs).Pairwise (fun a b => a.createdAt ≠ b.createdAt) :=
    ((sortDesc_perm bs).pairwise_iff (fun h => h.symm)).mpr hdist
  have hstrict : (sortDesc bs).Pairwise
      (fun a b => ∃ x y : Int, a.createdAt = some x ∧ b.createdAt = some y ∧ y < x) := by
    have hcomb := (sortDesc_sorted bs).and hdist'
    refine hcomb.imp_of_mem ?_
    intro a b ha hb hab
    have ha' := hsome a ((sortDesc_perm bs).subset ha)
    have hb' := hsome b ((sortDesc_perm bs).subset hb)
    rcases hca : a.createdAt with _ | x
    · exact absurd hca ha'
    · rcases hcb : b.createdAt with _ | y
      · exact absurd hcb hb'
      · refine ⟨x, y, rfl, rfl, ?_⟩
        rcases hab with ⟨hle, hne⟩
        have : keyLe b.createdAt a.createdAt = true := hle
        rw [hca, hcb] at this hne
        simp only [keyLe, decide_eq_true_eq] at this
        have : y ≠ x := by
          intro hxy
          exact hne (by rw [hxy])
        omega
  have hcross : ∀ p ∈ (sortDesc bs).take k, ∀ d ∈ (sortDesc bs).drop k,
      ∃ x y : Int, p.createdAt = some x ∧ d.createdAt = some y ∧ y < x := by
    have hsplit := hstrict
    rw [← List.take_append_drop k (sortDesc bs)] at hsplit
    exact (List.pairwise_append.mp hsplit).2.2
  refine ⟨hsel, ?_, ?_, ?_⟩
  · rw [hsel, List.length_drop, hlen]
  · rw [List.length_take]
    omega
  · intro d hd p hp
    rw [hsel] at hd
    rcases hcross p hp d hd with ⟨x, y, hx, hy, hlt⟩
    exact ⟨y, x, hy, hx, hlt⟩

def wSimpleList : List BackupRec :=
  [exRec "q_1.zip" 100, exRec "q_2.zip" 300, exRec "q_3.zip" 200]

/-- Witness for C5: three records with distinct creation instants and
`max_backups = 1`; the two oldest are selected for deletion. -/
theorem simple_rotation_witness :
    selectForDeletion none 1 0 (sortDesc wSimpleList) = (sortDesc wSimpleList).drop 1 :=
  (simple_rotation_deletes_oldest wSimpleList 1 0 (by decide) (by decide)
    (by decide)).1

/-- C6: whenever the tiered classification alone keeps fewer than
`max_backups` records, the final keep list is the classified keep list
extended with the newest not-yet-kept, not-yet-deleted records (the
line-315 comprehension, taken in order) until the floor is met or that
pool is exhausted. -/
theorem floor_backfill (pol : RetentionPolicy) (maxb : Nat) (now : Int)
    (sorted : List BackupRec)
    (hlt : (classifyTiered pol now sorted).1.length < maxb) :
    tieredFinalKeep pol maxb now sorted
      = (classifyTiered pol now sorted).1
        ++ (tieredRemaining pol now sorted).take
            (maxb - (classifyTiered pol now sorted).1.length)
    ∧ List.Pairwise DescLe (tieredRemaining pol now sorted)
    ∧ (tieredFinalKeep pol maxb now sorted).length
        = min maxb ((classifyTiered pol now sorted).1.length
            + (tieredRemaining pol now sorted).length) := by
  have hrem := tieredRemaining_nil pol now sorted
  refine ⟨?_, ?_, ?_⟩
  · simp only [tieredFinalKeep]
    rw [if_pos hlt]
  · rw [hrem]
    exact List.Pairwise.nil
  · simp only [tieredFinalKeep]
    rw [if_pos hlt, hrem]
    simp only [List.take_nil, List.append_nil, List.length_nil]
    omega

/-- Witness for C6: a single record aged zero days under
`{daily: 1, weekly: 1, monthly: 1}` with `max_backups = 2`: the
classification keeps one record, fewer than the floor, and the backfill
step runs (on an exhausted pool). -/
theorem floor_backfill_witness :
    tieredFinalKeep ⟨some 1, some 1, some 1⟩ 2 0 [exRec "q_1.zip" 0]
      = (classifyTiered ⟨some 1, some 1, some 1⟩ 0 [exRec "q_1.zip" 0]).1
        ++ (tieredRemaining ⟨some 1, some 1, some 1⟩ 0 [exRec "q_1.zip" 0]).take
            (2 - (classifyTiered ⟨some 1, some 1, some 1⟩ 0 [exRec "q_1.zip" 0]).1.length) :=
  (floor_backfill ⟨some 1, some 1, some 1⟩ 2 0 [exRec "q_1.zip" 0] (by decide)).1

theorem keyLe_refl (x : Option Int) : keyLe x x = true := by
  rcases x with _ | v <;> simp [keyLe]

theorem orderedInsert_filter_eq (a : BackupRec) (s : List BackupRec)
    (k : Option Int) (ha : a.createdAt = k) :
    (List.orderedInsert DescLe a s).filter (fun r => decide (r.createdAt = k)) =
      a :: s.filter (fun r => decide (r.createdAt = k)) := by
  induction s with
  | nil => simp [List.orderedInsert, ha]
  | cons b t ih =>
    simp only [List.orderedInsert]
    split
    · simp [List.filter_cons, ha]
    · rename_i hab
      have hbk : ¬ (b.createdAt = k) := by
        intro hbk
        apply hab
        show keyLe b.createdAt a.createdAt = true
        rw [hbk, ha]
        exact keyLe_refl k
      simp [List.filter_cons, hbk, ih]

theorem orderedInsert_filter_ne (a : BackupRec) (s : List BackupRec)
    (k : Option Int) (ha : ¬ a.createdAt = k) :
    (List.orderedInsert DescLe a s).filter (fun r => decide (r.createdAt = k)) =
      s.filter (fun r => decide (r.createdAt = k)) := by
  induction s with
  | nil => simp [List.orderedInsert, ha]
  | cons b t ih =>
    simp only [List.orderedInsert]
    split
    · simp [List.filter_cons, ha]
    · simp [List.filter_cons, ih]

/-- The sort of `list_backups` is stable: for every sort-key value, the
records carrying that key appear in the output in exactly their pre-sort
order. -/
theorem sortDesc_filter_key (l : List BackupRec) (k : Option Int) :
    (sortDesc l).filter (fun r => decide (r.createdAt = k)) =
      l.filter (fun r => decide (r.createdAt = k)) := by
  induction l with
  | nil => rfl
  | cons a t ih =>
    simp only [sortDesc, List.insertionSort]
    by_cases ha : a.createdAt = k
    · rw [orderedInsert_filter_eq a _ k ha]
      simp only [sortDesc] at ih
      rw [ih, List.filter_cons]
      simp [ha]
    · rw [orderedInsert_filter_ne a _ k ha]
      simp only [sortDesc] at ih
      rw [ih, List.filter_cons]
      simp [ha]

/-- Lexicographic order on the character data of two strings (the order
Python uses to compare `str` values). -/
def listCharLt : List Char → List Char → Bool
  | [], [] => false
  | [], _ :: _ => true
  | _ :: _, [] => false
  | c :: cs, d :: ds => c < d || (c == d && listCharLt cs ds)

def strLtChars (a b : String) : Bool := listCharLt a.data b.data

def tieFiles : List FsFile :=
  [⟨"p_a.zip", 10, 1, true⟩, ⟨"p_b.zip", 10, 1, true⟩]

/-- C7 counterexample: two untracked archives with equal modification
time (hence equal synthesized `created_at`) enumerated in ascending
filename order are returned by `list()` still in ascending filename
order: the sort key is `created_at` alone and the stable sort preserves
the enumeration order of ties, so no filename-descending tie-break is
applied. -/
theorem list_sort_no_filename_tiebreak :
    (listBackups "p" tieFiles []).map BackupRec.filename
        = ["p_a.zip", "p_b.zip"]
    ∧ strLtChars "p_a.zip" "p_b.zip" = true
    ∧ (listBackups "p" tieFiles []).map BackupRec.createdAt
        = [some 10, some 10] := by
  refine ⟨by decide, by decide, by decide⟩

/-- C7 amended: `list_backups` sorts by `created_at` descending only;
records with equal `created_at` keep their relative order from the
directory enumeration (stable sort) — the result is deterministic only
given the enumeration order, with no filename tie-break. -/
theorem list_sort_desc_stable (pfx : String) (files : List FsFile)
    (meta : List (String × BackupRec)) :
    List.Pairwise DescLe (listBackups pfx files meta)
    ∧ ∀ k : Option Int,
        (listBackups pfx files meta).filter (fun r => decide (r.createdAt = k))
          = (listBackupsRaw pfx files meta).filter (fun r => decide (r.createdAt = k)) := by
  constructor
  · exact sortDesc_sorted _
  · intro k
    exact sortDesc_filter_key _ k

/-- The record `list_backups` synthesizes for an untracked file. -/
def synthRec (f : FsFile) : BackupRec :=
  { filename := f.name, timestamp := extractTimestamp f.name,
    createdAt := some f.mtime, size := f.size, checksum := none,
    verified := false, weekNum := none, monthNum := none }

theorem lookup_mem {meta : List (String × BackupRec)} {n : String}
    {v : BackupRec} (h : List.lookup n meta = some v) : (n, v) ∈ meta := by
  induction meta with
  | nil => simp [List.lookup] at h
  | cons kv rest ih =>
    rcases kv with ⟨key, b⟩
    rw [List.lookup] at h
    rcases hnk : (n == key) with _ | _
    · rw [hnk] at h
      exact List.mem_cons_of_mem _ (ih h)
    · rw [hnk] at h
      have hkey : n = key := by
        have := hnk
        simp at this
        exact this
      have hb : b = v := by
        injection h
      rw [← hkey, hb]
      exact List.mem_cons_self _ _

/-- C8: every archive file matching the naming convention that has no
entry in the metadata store appears in `list()` as a synthesized record
(unverified, checksum `null`, `created_at` derived from the file mtime);
conversely every listed record is backed by a file in the directory, so
records whose file has vanished are dropped. -/
theorem list_reconciles (pfx : String) (files : List FsFile)
    (meta : List (String × BackupRec))
    (hwf : ∀ kv ∈ meta, (kv.2).filename = kv.1) :
    (∀ f ∈ files, strLeads f.name pfx = true → strTrails f.name ".zip" = true →
      List.lookup f.name meta = none →
      ∃ r ∈ listBackups pfx files meta,
        r.filename = f.name ∧ r.verified = false ∧ r.checksum = none ∧
          r.createdAt = some f.mtime)
    ∧ (∀ r ∈ listBackups pfx files meta, ∃ f ∈ files, r.filename = f.name) := by
  constructor
  · intro f hf h1 h2 hlook
    refine ⟨synthRec f, ?_, rfl, rfl, rfl, rfl⟩
    have hfil : f ∈ files.filter
        (fun f => strLeads f.name pfx && strTrails f.name ".zip") :=
      List.mem_filter.mpr ⟨hf, by simp [h1, h2]⟩
    have hraw : synthRec f ∈ listBackupsRaw pfx files meta := by
      simp only [listBackupsRaw]
      refine List.mem_map.mpr ⟨f, hfil, ?_⟩
      rw [hlook]
      simp [synthRec]
    exact (sortDesc_perm _).mem_iff.mpr hraw
  · intro r hr
    have hr' : r ∈ listBackupsRaw pfx files meta := (sortDesc_perm _).subset hr
    simp only [listBackupsRaw] at hr'
    rcases List.mem_map.mp hr' with ⟨f, hfmem, hfr⟩
    refine ⟨f, (List.mem_filter.mp hfmem).1, ?_⟩
    rcases hconv : List.lookup f.name meta with _ | v
    · rw [hconv] at hfr
      rw [← hfr]
    · rw [hconv] at hfr
      have hv : v.filename = f.name := hwf (f.name, v) (lookup_mem hconv)
      rw [← hfr]
      exact hv

/-- Witness for C8: one untracked file `r_1.zip` and one stale metadata
entry `r_gone.zip` with no backing file. -/
theorem list_reconciles_witness :
    (∀ f ∈ [(⟨"r_1.zip", 42, 7, true⟩ : FsFile)],
      strLeads f.name "r" = true → strTrails f.name ".zip" = true →
      List.lookup f.name [("r_gone.zip", exRec "r_gone.zip" 5)] = none →
      ∃ r ∈ listBackups "r" [⟨"r_1.zip", 42, 7, true⟩]
          [("r_gone.zip", exRec "r_gone.zip" 5)],
        r.filename = f.name ∧ r.verified = false ∧ r.checksum = none ∧
          r.createdAt = some f.mtime)
    ∧ (∀ r ∈ listBackups "r" [⟨"r_1.zip", 42, 7, true⟩]
          [("r_gone.zip", exRec "r_gone.zip" 5)],
        ∃ f ∈ [(⟨"r_1.zip", 42, 7, true⟩ : FsFile)], r.filename = f.name) :=
  list_reconciles "r" [⟨"r_1.zip", 42, 7, true⟩]
    [("r_gone.zip", exRec "r_gone.zip" 5)] (by decide)

/-- C9: rotation is idempotent — re-running `rotate()` at the same
classification instant on exactly the records kept by a previous
`rotate()` (simple or tiered) selects nothing for deletion. -/
theorem rotation_idempotent (rp : Option RetentionPolicy) (maxb : Nat)
    (now : Int) (bs : List BackupRec)
    (hann : ∀ b ∈ bs, b.weekNum = none ∧ b.monthNum = none) :
    selectForDeletion rp maxb now (sortDesc (keptAfterRotation rp maxb now bs)) = [] := by
  rcases htu : usesTiered rp with _ | _
  · simp only [keptAfterRotation, selectForDeletion, htu, Bool.false_eq_true,
      if_false]
    have htake : List.Pairwise DescLe ((sortDesc bs).take maxb) :=
      List.Pairwise.sublist (List.take_sublist maxb _) (sortDesc_sorted bs)
    rw [sortDesc_eq_of_sorted htake]
    simp only [rotateSimpleSelect]
    rw [if_neg (by rw [List.length_take]; omega)]
  · simp only [keptAfterRotation, selectForDeletion, htu, if_true]
    have hannL : ∀ x ∈ sortDesc bs, x.weekNum = none ∧ x.monthNum = none :=
      fun x hx => hann x ((sortDesc_perm bs).subset hx)
    rw [tieredFinalKeep_eq_keep]
    rw [sortDesc_eq_of_sorted
      (keep_strip_sorted (effectivePolicy rp) now (sortDesc_sorted bs))]
    exact rotate_tiered_kept_nil (effectivePolicy rp) maxb now (sortDesc bs) hannL

/-- Witness for C9: a tiered policy over the seven-archive scenario —
the survivors of the first rotation are all retained by the second. -/
theorem rotation_idempotent_witness :
    selectForDeletion (some exPolicy) 7 exNow
      (sortDesc (keptAfterRotation (some exPolicy) 7 exNow exInventory)) = [] :=
  rotation_idempotent (some exPolicy) 7 exNow exInventory (by decide)

def c2State : CatalogState :=
  ⟨[⟨"p_3.zip", 300, 1, true⟩, ⟨"p_2.zip", 200, 1, false⟩,
    ⟨"p_1.zip", 100, 1, true⟩], []⟩

/-- C2 counterexample: simple rotation with `max_backups = 1` selects the
two oldest archives; removing the first (`p_2.zip`) fails, and because
`rotate_backups` wraps no handler around `os.remove`, the error
propagates — the rotation call becomes fatal and the remaining archive
`p_1.zip`, although deletable, is still on storage afterwards,
contradicting the claimed best-effort continuation. -/
theorem rotate_delete_failure_aborts :
    (rotateOnState none 1 0 "p" c2State).2 = some "Failed to delete p_2.zip"
    ∧ (rotateOnState none 1 0 "p" c2State).1.files.any
        (fun f => f.name == "p_1.zip") = true := by
  constructor <;> decide

/-- C2 amended: a selected record whose archive file is already absent is
skipped — metadata entry left intact, remaining deletions proceed; but a
failure of the file-removal call itself propagates uncaught, leaving the
whole state (including that record's metadata entry) untouched and
aborting the remaining deletions of the rotation call. -/
theorem delete_loop_unit_behavior (st : CatalogState) (b : BackupRec)
    (rest : List BackupRec) :
    (List.find? (fun f => f.name == b.filename) st.files = none →
      deleteLoop st (b :: rest) = deleteLoop st rest)
    ∧ (∀ f, List.find? (fun f => f.name == b.filename) st.files = some f →
        f.deletable = false →
        deleteLoop st (b :: rest) = (st, some ("Failed to delete " ++ b.filename))) := by
  constructor
  · intro h
    simp [deleteLoop, h]
  · intro f hfind hdel
    simp [deleteLoop, hfind, hdel]

def c2MissingState : CatalogState := ⟨[⟨"s_2.zip", 2, 1, false⟩], []⟩

/-- Witness for C2 (amended): a record whose file is not on storage is
skipped and the loop continues with the rest. -/
theorem delete_loop_unit_behavior_witness :
    deleteLoop c2MissingState [exRec "s_9.zip" 9, exRec "s_2.zip" 2]
      = deleteLoop c2MissingState [exRec "s_2.zip" 2] :=
  (delete_loop_unit_behavior c2MissingState (exRec "s_9.zip" 9)
    [exRec "s_2.zip" 2]).1 (by decide)

def c3Behavior : ZipBehavior :=
  { copyFails := false, zipExit := 1, zipStderr := "zip I/O error: disk full",
    zipWritesDest := true, archiveSize := 0, digest := "", verifyOk := false }

/-- C3 counterexample: the external archiver exits non-zero after leaving
partial output at the destination path; the builder raises the
archive-creation error carrying the tool's stderr, yet the partial
archive file is still present at the destination afterwards — nothing in
`create_encrypted_backup` removes the destination file before surfacing
the error. -/
theorem build_failure_leaves_partial :
    (createEncryptedBackup "p" "2024-01-01-00-00-00" 0 "tmp-1" c3Behavior
        ⟨[], []⟩).2
      = Except.error "Failed to create encrypted backup: zip I/O error: disk full"
    ∧ backupFilenameOf "p" "2024-01-01-00-00-00"
        ∈ (createEncryptedBackup "p" "2024-01-01-00-00-00" 0 "tmp-1" c3Behavior
            ⟨[], []⟩).1.destFiles := by
  refine ⟨rfl, by decide⟩

/-- C3 amended: on a non-zero exit of the archiver the builder fails with
`RuntimeError` carrying the tool's diagnostic output, but it does not
remove the destination file: the destination holds exactly what the
external tool left there (partial output persists; nothing appears if
the tool wrote nothing). -/
theorem build_failure_error_and_dest (pfx ts : String) (nowIso : Int)
    (tempName : String) (beh : ZipBehavior) (st0 : BuildState)
    (hc : beh.copyFails = false) (hz : ¬ beh.zipExit = 0) :
    (createEncryptedBackup pfx ts nowIso tempName beh st0).2
        = Except.error ("Failed to create encrypted backup: " ++ beh.zipStderr)
    ∧ (beh.zipWritesDest = true →
        (createEncryptedBackup pfx ts nowIso tempName beh st0).1.destFiles
          = st0.destFiles ++ [backupFilenameOf pfx ts])
    ∧ (beh.zipWritesDest = false →
        (createEncryptedBackup pfx ts nowIso tempName beh st0).1.destFiles
          = st0.destFiles) := by
  cases hwd : beh.zipWritesDest <;>
    simp [createEncryptedBackup, buildBody, hc, hz, hwd]

/-- Witness for C3 (amended): concrete failing build. -/
theorem build_failure_error_and_dest_witness :
    (createEncryptedBackup "q" "2024-02-02-00-00-00" 0 "tmp-2" c3Behavior
        ⟨["old-tmp"], ["q_prev.zip"]⟩).2
      = Except.error ("Failed to create encrypted backup: "
          ++ c3Behavior.zipStderr) :=
  (build_failure_error_and_dest "q" "2024-02-02-00-00-00" 0 "tmp-2" c3Behavior
    ⟨["old-tmp"], ["q_prev.zip"]⟩ (by decide) (by decide)).1

theorem buildBody_tempDirs (pfx ts : String) (nowIso : Int) (beh : ZipBehavior)
    (st : BuildState) :
    (buildBody pfx ts nowIso beh st).1.tempDirs = st.tempDirs := by
  unfold buildBody
  split
  · rfl
  · dsimp only
    split <;> split <;> rfl

/-- C4: on every exit path of `create_encrypted_backup` — success,
verification failure, staging-copy failure, or a non-zero exit of the
archiver — the `finally` block removes the staging directory allocated
for the build, and no other temporary directory is touched. -/
theorem build_cleanup (pfx ts : String) (nowIso : Int) (tempName : String)
    (beh : ZipBehavior) (st0 : BuildState)
    (h : tempName ∉ st0.tempDirs) :
    tempName ∉ (createEncryptedBackup pfx ts nowIso tempName beh st0).1.tempDirs
    ∧ (createEncryptedBackup pfx ts nowIso tempName beh st0).1.tempDirs
        = st0.tempDirs := by
  have hfil : (st0.tempDirs ++ [tempName]).filter (fun d => !(d == tempName))
      = st0.tempDirs := by
    rw [List.filter_append]
    have h1 : st0.tempDirs.filter (fun d => !(d == tempName)) = st0.tempDirs := by
      apply List.filter_eq_self.mpr
      intro a ha
      simp only [Bool.not_eq_eq_eq_not, Bool.not_true, beq_eq_false_iff_ne]
      intro heq
      exact h (heq ▸ ha)
    rw [h1]
    simp
  have hbt := buildBody_tempDirs pfx ts nowIso beh
    { st0 with tempDirs := st0.tempDirs ++ [tempName] }
  have hmain : (createEncryptedBackup pfx ts nowIso tempName beh st0).1.tempDirs
      = st0.tempDirs := by
    unfold createEncryptedBackup
    simp only [hbt]
    rw [if_pos (by simp)]
    simp only [hbt]
    exact hfil
  exact ⟨hmain ▸ h, hmain⟩

/-- Witness for C4: a failing build (archiver exit 1 with partial output)
leaves the pre-existing temp-directory set unchanged — the staging
directory `tmp-3` is gone. -/
theorem build_cleanup_witness :
    (createEncryptedBackup "q" "2024-03-03-00-00-00" 0 "tmp-3" c3Behavior
        ⟨["other-tmp"], []⟩).1.tempDirs = ["other-tmp"] :=
  (build_cleanup "q" "2024-03-03-00-00-00" 0 "tmp-3" c3Behavior
    ⟨["other-tmp"], []⟩ (by decide)).2
